import Mathlib

/-!
Verification of the csv-combiner core (src/app/page.tsx).

Strings are modelled as lists of characters (`Str`), so that every JS
string operation used by the code (split, trim, includes, join, replace,
endsWith) becomes an explicit recursive function on lists.  JS objects
built by repeated `row[key] = value` assignment are modelled as ordered
association lists (`Row`) with an `objInsert` operation: assigning to an
existing key overwrites its value in place, assigning a fresh key appends
it, matching JS property-insertion order (`Object.keys`).
-/

namespace CSVC

abbrev Str := List Char

/-- The whitespace characters removed by JS `String.prototype.trim`
(restricted to the ASCII range, which is all the repository ever feeds it). -/
def isWS (c : Char) : Bool :=
  c = ' ' || c = '\t' || c = '\n' || c = '\r' || c = '\x0b' || c = '\x0c'

/-- JS `s.trim()`: drop whitespace from both ends. -/
def trim (s : Str) : Str :=
  ((s.dropWhile isWS).reverse.dropWhile isWS).reverse

/-- JS `text.split(sep)` for a single-character separator: yields the
(possibly empty) pieces between occurrences of `sep`, with `[[]]` for the
empty string, exactly the behaviour of `List.splitOn`. -/
def splitOnChar (sep : Char) (s : Str) : List Str := s.splitOn sep

/-- JS `s.replace(/"/g, "")` (page.tsx lines 61 and 63). -/
def stripQuotes (s : Str) : Str := s.filter (fun c => c ≠ '"')

/-- The body of the character loop of `parseCSVLine` (page.tsx lines 44-55),
acting on the loop state `(result, current, inQuotes)`. -/
def parseStep (st : List Str × Str × Bool) (c : Char) : List Str × Str × Bool :=
  let (result, current, inQuotes) := st
  if c = '"' then (result, current, !inQuotes)
  else if c = ',' && !inQuotes then (result ++ [trim current], [], inQuotes)
  else (result, current ++ [c], inQuotes)

/-- `parseCSVLine` (page.tsx lines 39-59): one pass over the line with an
accumulator `current` and an `inQuotes` flag, exactly the for-loop of the
source, with the final `result.push(current.trim())` appended at the end. -/
def parseCSVLine (line : Str) : List Str :=
  let st := line.foldl parseStep ([], [], false)
  st.1 ++ [trim st.2.1]

/-- A parsed row: the JS object built by `row[header] = values[index] || ""`,
as an ordered association list. -/
abbrev Row := List (Str × Str)

/-- `Object.keys`. -/
def rkeys (r : Row) : List Str := r.map Prod.fst

/-- JS property assignment `m[k] = v`: overwrite in place when the key is
present, append otherwise. -/
def objInsert (m : Row) (k v : Str) : Row :=
  if m.any (fun p => p.1 = k) then
    m.map (fun p => if p.1 = k then (k, v) else p)
  else m ++ [(k, v)]

/-- JS property read with the `|| ""` fallback used at page.tsx lines 66,
141 and 159: the stored value when the key is present (an empty value stays
empty, as in JS where `"" || ""` is `""`), empty otherwise. -/
def rowLookup (r : Row) (k : Str) : Str :=
  ((r.find? (fun p => p.1 = k)).map Prod.snd).getD []

/-- The `headers.forEach((header, index) => row[header] = values[index] || "")`
loop (page.tsx lines 64-67), with the running index made explicit.
`values[index]` is `undefined` past the end of `values`, and `x || ""`
yields `""` for both `undefined` and `""`, hence `getD i []`. -/
def mkRowAux (vs : List Str) : Row → Nat → List Str → Row
  | m, _, [] => m
  | m, i, h :: hs => mkRowAux vs (objInsert m h (vs.getD i [])) (i + 1) hs

def mkRow (headers vs : List Str) : Row := mkRowAux vs [] 0 headers

/-- `parseCSV` (page.tsx lines 30-72): split the document on line feeds,
keep the lines whose trim is non-empty, take the first as the header
(quotes stripped), and build one row per remaining line. -/
def parseCSV (text : Str) : List Row :=
  let lines := (splitOnChar '\n' text).filter (fun l => trim l ≠ [])
  match lines with
  | [] => []
  | hline :: dlines =>
    let headers := (parseCSVLine hline).map stripQuotes
    dlines.map (fun line => mkRow headers ((parseCSVLine line).map stripQuotes))

/-- One entry of the `uploadedFiles` state (the `UploadedFile` interface,
without the UI-only random id and the `File` handle). -/
structure UploadedFile where
  name : Str
  rows : Nat
  columns : List Str
  data : List Row
  deriving Repr, DecidableEq

/-- The record pushed for one accepted file (page.tsx lines 94-104):
`columns` is `Object.keys(data[0])` when there is at least one data row,
`[]` otherwise. -/
def uploadEntry (name text : Str) : UploadedFile :=
  let d := parseCSV text
  { name := name
    rows := d.length
    columns := match d with | [] => [] | r :: _ => rkeys r
    data := d }

/-- The column union of `combineCSVs` (page.tsx lines 128-133): a JS `Set`
filled by iterating files in order and each file's columns in order keeps
insertion order, so `Array.from` of it is a first-seen dedup. -/
def unionColumns (files : List UploadedFile) : List Str :=
  files.foldl (fun acc f =>
    f.columns.foldl (fun a c => if c ∈ a then a else a ++ [c]) acc) []

/-- The row reshaping of `combineCSVs` (page.tsx lines 139-142):
`columnArray.forEach(col => newRow[col] = row[col] || "")`. -/
def reshapeRow (columnArray : List Str) (row : Row) : Row :=
  columnArray.foldl (fun m col => objInsert m col (rowLookup row col)) []

/-- `combineCSVs` (page.tsx lines 124-148): the nested forEach pushing one
reshaped row per input row onto `combined`. -/
def combineCSVs (files : List UploadedFile) : List Row :=
  let columnArray := unionColumns files
  files.foldl (fun combined f =>
    f.data.foldl (fun comb row => comb ++ [reshapeRow columnArray row]) combined) []

/-- `value.replace(/"/g, str of two quotes)` (page.tsx line 162). -/
def replaceQuotes (v : Str) : Str :=
  v.flatMap (fun c => if c = '"' then ['"', '"'] else [c])

/-- The per-cell escaping of `downloadCombinedCSV` (page.tsx lines 158-165). -/
def escapeCell (v : Str) : Str :=
  if (',' ∈ v ∨ '"' ∈ v ∨ '\n' ∈ v) then '"' :: replaceQuotes v ++ ['"'] else v

/-- The `csvContent` built by `downloadCombinedCSV` (page.tsx lines 153-168):
header line from `Object.keys` of the first row, one line per row, joined by
line feeds.  The source returns before this point when there are no rows, so
the empty case never reaches the serializer; it is mapped to the empty text. -/
def downloadContent (rows : List Row) : Str :=
  match rows with
  | [] => []
  | r0 :: _ =>
    let columns := rkeys r0
    List.intercalate ['\n']
      (List.intercalate [','] columns ::
        rows.map (fun row =>
          List.intercalate [','] (columns.map (fun col => escapeCell (rowLookup row col)))))

/-- JS `c.toLowerCase()` per character, as used on file names. -/
def lowerName (s : Str) : Str := s.map Char.toLower

/-- `file.name.toLowerCase().endsWith(".csv")` (page.tsx line 88). -/
def isCsvName (name : Str) : Bool :=
  List.isSuffixOf ('.' :: 'c' :: 's' :: 'v' :: []) (lowerName name)

/-- One file handed to `handleFileUpload`: its name and its text content. -/
structure FileInput where
  name : Str
  text : Str
  deriving Repr, DecidableEq

def notCsvMsg (name : Str) : Str :=
  "File ".data ++ name ++ " is not a CSV file".data

def maxFilesMsg : Str := "Maximum 100 files allowed".data

/-- The per-file loop of `handleFileUpload` (page.tsx lines 85-110): a file
whose lowercased name does not end in `.csv` emits its error message and is
skipped; any other file is parsed and appended to `newFiles`.  The pair
accumulates `newFiles` and the sequence of `setError` messages emitted. -/
def uploadStep (acc : List UploadedFile × List Str) (f : FileInput) :
    List UploadedFile × List Str :=
  if isCsvName f.name then (acc.1 ++ [uploadEntry f.name f.text], acc.2)
  else (acc.1, acc.2 ++ [notCsvMsg f.name])

/-- `handleFileUpload` (page.tsx lines 74-117) as a state transition on the
registered-file list: when the batch would push the total past 100 the batch
is rejected whole (lines 76-79); otherwise the per-file loop runs and the
new files are appended to the existing ones (line 112).  The second
component is the list of error messages emitted while processing. -/
def handleFileUpload (registered : List UploadedFile) (batch : List FileInput) :
    List UploadedFile × List Str :=
  if batch.length + registered.length > 100 then (registered, [maxFilesMsg])
  else
    let (news, msgs) := batch.foldl uploadStep ([], [])
    (registered ++ news, msgs)

/-! Spec-side definitions, written from the specification text, to be
compared with the source translations above. -/

/-- The field-splitting scan exactly as §4.1 of the spec words it: left to
right, `inQuotes` flag, quote toggles, comma outside quotes ends the field
(trimmed), everything else copied; at end of line the final accumulated
field is trimmed and appended. -/
def scanLine : Str → Str → Bool → List Str
  | [], buf, _ => [trim buf]
  | c :: cs, buf, q =>
    if c = '"' then scanLine cs buf (!q)
    else if c = ',' && !q then trim buf :: scanLine cs [] q
    else scanLine cs (buf ++ [c]) q

/-- First-seen deduplication as a fold, the shape shared by the column
union and by JS object key insertion. -/
def dedupFirst (l : List Str) : List Str :=
  l.foldl (fun a h => if h ∈ a then a else a ++ [h]) []

/-- First-appearance deduplication as §4.2 words it: keep each name the
first time it is seen, drop its later occurrences. -/
def dedupSpecR : List Str → List Str
  | [] => []
  | x :: xs => x :: (dedupSpecR xs).filter (fun y => y ≠ x)

/-- Position of the last occurrence of `h` in a list, counting from `i`. -/
def lastPos (h : Str) (i : Nat) : List Str → Option Nat
  | [] => none
  | x :: xs =>
    match lastPos h (i + 1) xs with
    | some j => some j
    | none => if x = h then some i else none

/-- Joining a list of pieces with a single separator character, written as
plain recursion (spec side of JS `Array.prototype.join`). -/
def joinBy (sep : Char) : List Str → Str
  | [] => []
  | [x] => x
  | x :: y :: xs => x ++ sep :: joinBy sep (y :: xs)

/-- Doubling every literal quote, as §4.3 words the escaping. -/
def doubleQuotesSpec : Str → Str
  | [] => []
  | c :: cs =>
    if c = '"' then '"' :: '"' :: doubleQuotesSpec cs
    else c :: doubleQuotesSpec cs

/-- The serializer exactly as §4.3 of the spec words it: header line is the
column names joined by commas unquoted; each cell is wrapped in quotes
if and only if it contains a comma, a quote or a line feed, with inner
quotes doubled; lines joined by line feed, no trailing newline. -/
def serializeSpec (rows : List Row) : Str :=
  match rows with
  | [] => []
  | r0 :: _ =>
    joinBy '\n'
      (joinBy ',' (rkeys r0) ::
        rows.map (fun row =>
          joinBy ','
            ((rkeys r0).map (fun col =>
              let v := rowLookup row col
              if (',' ∈ v ∨ '"' ∈ v ∨ '\n' ∈ v) then '"' :: doubleQuotesSpec v ++ ['"']
              else v))))

/-! ### Splitting and joining -/

theorem splitOnChar_ne_nil (sep : Char) (s : Str) : splitOnChar sep s ≠ [] := by
  simpa [splitOnChar, List.splitOn] using List.splitOnP_ne_nil (· == sep) s

theorem splitOnChar_nil (sep : Char) : splitOnChar sep [] = [[]] := rfl

theorem splitOnChar_cons (sep c : Char) (cs : Str) :
    splitOnChar sep (c :: cs) =
      if c = sep then [] :: splitOnChar sep cs
      else (splitOnChar sep cs).modifyHead (List.cons c) := by
  simp only [splitOnChar, List.splitOn, List.splitOnP_cons, beq_iff_eq]

theorem mem_splitOnChar {sep : Char} {s : Str} :
    ∀ {p : Str}, p ∈ splitOnChar sep s → ∀ {c : Char}, c ∈ p → c ∈ s ∧ c ≠ sep := by
  induction s with
  | nil =>
    intro p hp c hc
    rw [splitOnChar_nil, List.mem_singleton] at hp
    subst hp; simp at hc
  | cons x xs ih =>
    intro p hp c hc
    rw [splitOnChar_cons] at hp
    by_cases hx : x = sep
    · rw [if_pos hx] at hp
      rcases List.mem_cons.mp hp with h | h
      · subst h; simp at hc
      · rcases ih h hc with ⟨h1, h2⟩
        exact ⟨List.mem_cons_of_mem _ h1, h2⟩
    · rw [if_neg hx] at hp
      obtain ⟨q, qs, hq⟩ := List.exists_cons_of_ne_nil (splitOnChar_ne_nil sep xs)
      rw [hq, List.modifyHead_cons] at hp
      rcases List.mem_cons.mp hp with h | h
      · subst h
        rcases List.mem_cons.mp hc with h | h
        · subst h; exact ⟨List.mem_cons_self _ _, hx⟩
        · have hq' : q ∈ splitOnChar sep xs := by
            rw [hq]; exact List.mem_cons_self _ _
          rcases ih hq' h with ⟨h1, h2⟩
          exact ⟨List.mem_cons_of_mem _ h1, h2⟩
      · have hp' : p ∈ splitOnChar sep xs := by
          rw [hq]; exact List.mem_cons_of_mem _ h
        rcases ih hp' hc with ⟨h1, h2⟩
        exact ⟨List.mem_cons_of_mem _ h1, h2⟩

theorem intercalate_one (s : Char) (p : Str) : List.intercalate [s] [p] = p := by
  simp [List.intercalate]

theorem intercalate_two (s : Char) (p q : Str) (L : List Str) :
    List.intercalate [s] (p :: q :: L) = p ++ s :: List.intercalate [s] (q :: L) := by
  simp [List.intercalate, List.intersperse_cons_cons]

theorem splitOnChar_intercalate (sep : Char) {L : List Str}
    (hL : L ≠ []) (h : ∀ p ∈ L, sep ∉ p) :
    splitOnChar sep (List.intercalate [sep] L) = L := by
  simpa [splitOnChar] using List.splitOn_intercalate L sep h hL

theorem mem_intercalate {sep : Char} {L : List Str} {c : Char}
    (hc : c ∈ List.intercalate [sep] L) : c = sep ∨ ∃ p ∈ L, c ∈ p := by
  induction L with
  | nil => simp [List.intercalate] at hc
  | cons p L ih =>
    cases L with
    | nil =>
      rw [intercalate_one] at hc
      exact Or.inr ⟨p, List.mem_cons_self _ _, hc⟩
    | cons q M =>
      rw [intercalate_two] at hc
      rcases List.mem_append.mp hc with h | h
      · exact Or.inr ⟨p, List.mem_cons_self _ _, h⟩
      · rcases List.mem_cons.mp h with h | h
        · exact Or.inl h
        · rcases ih h with h | ⟨r, hr, hcr⟩
          · exact Or.inl h
          · exact Or.inr ⟨r, List.mem_cons_of_mem _ hr, hcr⟩

/-! ### Trimming -/

theorem dropWhile_dropWhile (p : Char → Bool) (l : Str) :
    (l.dropWhile p).dropWhile p = l.dropWhile p := by
  induction l with
  | nil => rfl
  | cons c cs ih =>
    by_cases h : p c
    · simp [List.dropWhile_cons, h, ih]
    · simp [List.dropWhile_cons, h]

theorem head_dropWhile_false {p : Char → Bool} {l : Str} {c : Char} {cs : Str}
    (h : l.dropWhile p = c :: cs) : p c = false := by
  induction l with
  | nil => simp at h
  | cons x xs ih =>
    rw [List.dropWhile_cons] at h
    by_cases hx : p x
    · rw [if_pos hx] at h; exact ih h
    · rw [if_neg hx] at h
      injection h with h1 _
      subst h1
      simpa using hx

theorem dropWhile_eq_self_of_head {p : Char → Bool} {l : Str}
    (h : ∀ c cs, l = c :: cs → p c = false) : l.dropWhile p = l := by
  cases l with
  | nil => rfl
  | cons c cs => simp [List.dropWhile_cons, h c cs rfl]

theorem mem_trim {s : Str} {c : Char} (h : c ∈ trim s) : c ∈ s := by
  unfold trim at h
  rw [List.mem_reverse] at h
  have h1 := (List.dropWhile_sublist (l := (s.dropWhile isWS).reverse) isWS).mem h
  rw [List.mem_reverse] at h1
  exact (List.dropWhile_sublist isWS).mem h1

theorem trim_head {s : Str} {c : Char} {cs : Str} (h : trim s = c :: cs) :
    isWS c = false := by
  have h0 : (((s.dropWhile isWS).reverse.dropWhile isWS).reverse).head? = some c := by
    rw [show (((s.dropWhile isWS).reverse.dropWhile isWS).reverse) = trim s from rfl, h]
    rfl
  rw [List.head?_reverse] at h0
  have hne : ((s.dropWhile isWS).reverse).dropWhile isWS ≠ [] := by
    intro hnil; rw [hnil] at h0; simp at h0
  have h1 : ((s.dropWhile isWS).reverse).getLast? = some c := by
    conv_lhs =>
      rw [← List.takeWhile_append_dropWhile (p := isWS) (l := (s.dropWhile isWS).reverse)]
    rw [List.getLast?_append, h0]
    rfl
  rw [List.getLast?_reverse] at h1
  cases h2 : s.dropWhile isWS with
  | nil => rw [h2] at h1; simp at h1
  | cons d ds =>
    rw [h2] at h1
    simp only [List.head?_cons, Option.some.injEq] at h1
    subst h1
    exact head_dropWhile_false h2

theorem trim_idem (s : Str) : trim (trim s) = trim s := by
  have hA : (trim s).dropWhile isWS = trim s :=
    dropWhile_eq_self_of_head (fun c cs h => trim_head h)
  have hB : (trim s).reverse = (s.dropWhile isWS).reverse.dropWhile isWS := by
    unfold trim; rw [List.reverse_reverse]
  show (((trim s).dropWhile isWS).reverse.dropWhile isWS).reverse = trim s
  rw [hA, hB, dropWhile_dropWhile, ← hB, List.reverse_reverse]

/-! ### The field-splitting scan -/

theorem foldl_parseStep (cs : Str) : ∀ (res : List Str) (cur : Str) (q : Bool),
    (cs.foldl parseStep (res, cur, q)).1 ++ [trim (cs.foldl parseStep (res, cur, q)).2.1]
      = res ++ scanLine cs cur q := by
  induction cs with
  | nil => intro res cur q; simp [scanLine]
  | cons c cs ih =>
    intro res cur q
    rw [List.foldl_cons]
    by_cases h1 : c = '"'
    · rw [show parseStep (res, cur, q) c = (res, cur, !q) by simp [parseStep, h1]]
      rw [ih, show scanLine (c :: cs) cur q = scanLine cs cur (!q) by simp [scanLine, h1]]
    · cases q with
      | false =>
        by_cases h2 : c = ','
        · rw [show parseStep (res, cur, false) c = (res ++ [trim cur], [], false) by
            simp [parseStep, h1, h2]]
          rw [ih, show scanLine (c :: cs) cur false = trim cur :: scanLine cs [] false by
            simp [scanLine, h1, h2]]
          simp
        · rw [show parseStep (res, cur, false) c = (res, cur ++ [c], false) by
            simp [parseStep, h1, h2]]
          rw [ih, show scanLine (c :: cs) cur false = scanLine cs (cur ++ [c]) false by
            simp [scanLine, h1, h2]]
      | true =>
        rw [show parseStep (res, cur, true) c = (res, cur ++ [c], true) by
          simp [parseStep, h1]]
        rw [ih, show scanLine (c :: cs) cur true = scanLine cs (cur ++ [c]) true by
          simp [scanLine, h1]]

/-- C5: `parseCSVLine` splits a line exactly by the left-to-right scan the
spec describes: `inQuotes` starts false, a quote toggles it without being
copied, a comma outside quotes ends the current field (trimmed), a comma
inside quotes and every other character are copied literally, and at end of
line the final accumulated field is trimmed and appended (`scanLine` is
that description verbatim). -/
theorem parseCSVLine_eq_scanLine (line : Str) :
    parseCSVLine line = scanLine line [] false := by
  simpa [parseCSVLine] using foldl_parseStep line [] [] false

theorem scanLine_no_quote {cs : Str} (h : '"' ∉ cs) :
    ∀ buf, scanLine cs buf false =
      match splitOnChar ',' cs with
      | [] => [trim buf]
      | p :: ps => trim (buf ++ p) :: ps.map trim := by
  induction cs with
  | nil => intro buf; rw [splitOnChar_nil]; simp [scanLine]
  | cons c cs ih =>
    intro buf
    have hc : c ≠ '"' := fun hh => h (hh ▸ List.mem_cons_self _ _)
    have h' : '"' ∉ cs := fun hh => h (List.mem_cons_of_mem _ hh)
    obtain ⟨p, ps, hsp⟩ := List.exists_cons_of_ne_nil (splitOnChar_ne_nil ',' cs)
    by_cases h2 : c = ','
    · rw [show scanLine (c :: cs) buf false = trim buf :: scanLine cs [] false by
        simp [scanLine, hc, h2]]
      rw [ih h' [], splitOnChar_cons, if_pos h2, hsp]
      simp
    · rw [show scanLine (c :: cs) buf false = scanLine cs (buf ++ [c]) false by
        simp [scanLine, hc, h2]]
      rw [ih h' (buf ++ [c]), splitOnChar_cons, if_neg h2, hsp, List.modifyHead_cons]
      simp

theorem parseCSVLine_no_quote {line : Str} (h : '"' ∉ line) :
    parseCSVLine line = (splitOnChar ',' line).map trim := by
  obtain ⟨p, ps, hsp⟩ := List.exists_cons_of_ne_nil (splitOnChar_ne_nil ',' line)
  rw [parseCSVLine_eq_scanLine, scanLine_no_quote h [], hsp]
  simp

theorem stripQuotes_no_quote {s : Str} (h : '"' ∉ s) : stripQuotes s = s := by
  rw [stripQuotes, List.filter_eq_self]
  intro a ha
  simp only [decide_eq_true_eq]
  intro hh
  exact h (hh ▸ ha)

/-! ### JS objects: keys, insertion, lookup -/

theorem any_key (m : Row) (k : Str) :
    (m.any (fun p => p.1 = k) = true) ↔ k ∈ rkeys m := by
  rw [List.any_eq_true, rkeys]
  constructor
  · rintro ⟨p, hp, he⟩
    rw [decide_eq_true_eq] at he
    exact he ▸ List.mem_map_of_mem Prod.fst hp
  · intro hk
    rcases List.mem_map.mp hk with ⟨p, hp, he⟩
    exact ⟨p, hp, by rw [decide_eq_true_eq]; exact he.symm ▸ rfl⟩

theorem rkeys_objInsert (m : Row) (k v : Str) :
    rkeys (objInsert m k v) =
      if k ∈ rkeys m then rkeys m else rkeys m ++ [k] := by
  unfold objInsert
  by_cases h : k ∈ rkeys m
  · rw [if_pos ((any_key m k).mpr h), if_pos h, rkeys, List.map_map]
    apply List.map_congr_left
    intro p _
    by_cases hp : p.1 = k
    · simp [hp]
    · simp [hp]
  · rw [if_neg (fun hh => h ((any_key m k).mp hh)), if_neg h, rkeys, rkeys, List.map_append]
    rfl

theorem find?_map_replace_self {k : Str} (v : Str) :
    ∀ (m : Row), k ∈ rkeys m →
      (m.map (fun p => if p.1 = k then (k, v) else p)).find? (fun p => p.1 = k)
        = some (k, v) := by
  intro m
  induction m with
  | nil => intro h; simp [rkeys] at h
  | cons hd tl ih =>
    intro h
    rw [List.map_cons]
    by_cases hhd : hd.1 = k
    · rw [if_pos hhd, List.find?_cons_of_pos _ (by simp)]
    · rw [if_neg hhd, List.find?_cons_of_neg _ (by simpa using hhd)]
      apply ih
      have hkeys : rkeys (hd :: tl) = hd.1 :: rkeys tl := rfl
      rw [hkeys] at h
      rcases List.mem_cons.mp h with h1 | h1
      · exact absurd h1.symm hhd
      · exact h1

theorem find?_map_replace_ne {k k' : Str} (v : Str) (h : k' ≠ k) :
    ∀ (m : Row),
      (m.map (fun p => if p.1 = k then (k, v) else p)).find? (fun p => p.1 = k')
        = m.find? (fun p => p.1 = k') := by
  intro m
  induction m with
  | nil => rfl
  | cons hd tl ih =>
    rw [List.map_cons]
    by_cases hhd : hd.1 = k
    · rw [if_pos hhd,
        List.find?_cons_of_neg _ (by simpa using fun hh : k = k' => h hh.symm),
        List.find?_cons_of_neg _ (by
          simp only [decide_eq_true_eq]
          rw [hhd]
          exact fun hh => h hh.symm)]
      exact ih
    · rw [if_neg hhd]
      by_cases hk' : hd.1 = k'
      · rw [List.find?_cons_of_pos _ (by simpa using hk'),
          List.find?_cons_of_pos _ (by simpa using hk')]
      · rw [List.find?_cons_of_neg _ (by simpa using hk'),
          List.find?_cons_of_neg _ (by simpa using hk')]
        exact ih

theorem rowLookup_objInsert_self (m : Row) (k v : Str) :
    rowLookup (objInsert m k v) k = v := by
  unfold objInsert
  by_cases h : m.any (fun p => p.1 = k) = true
  · rw [if_pos h, rowLookup, find?_map_replace_self v m ((any_key m k).mp h)]
    rfl
  · rw [if_neg h, rowLookup, List.find?_append]
    have hnone : m.find? (fun p => p.1 = k) = none := by
      rw [List.find?_eq_none]
      intro p hp hpk
      rw [decide_eq_true_eq] at hpk
      exact h ((any_key m k).mpr (hpk ▸ List.mem_map_of_mem Prod.fst hp))
    rw [hnone]
    simp

theorem rowLookup_objInsert_ne (m : Row) {k k' : Str} (v : Str) (h : k' ≠ k) :
    rowLookup (objInsert m k v) k' = rowLookup m k' := by
  unfold objInsert
  by_cases hmem : m.any (fun p => p.1 = k) = true
  · rw [if_pos hmem, rowLookup, find?_map_replace_ne v h m]
    rfl
  · rw [if_neg hmem, rowLookup, List.find?_append]
    have hlast : List.find? (fun p => p.1 = k') [(k, v)] = none := by
      rw [List.find?_cons_of_neg _ (by simpa using fun hh : k = k' => h hh.symm)]
      rfl
    rw [hlast, Option.or_none]
    rfl

/-! ### Row construction from a header -/

theorem rkeys_mkRowAux (vs : List Str) :
    ∀ (hs : List Str) (m : Row) (i : Nat),
      rkeys (mkRowAux vs m i hs) =
        hs.foldl (fun a h => if h ∈ a then a else a ++ [h]) (rkeys m) := by
  intro hs
  induction hs with
  | nil => intro m i; rfl
  | cons x xs ih =>
    intro m i
    rw [mkRowAux, ih, List.foldl_cons, rkeys_objInsert]

theorem rkeys_mkRow (hs vs : List Str) : rkeys (mkRow hs vs) = dedupFirst hs := by
  rw [mkRow, dedupFirst, rkeys_mkRowAux]
  rfl

theorem rowLookup_mkRowAux (vs : List Str) :
    ∀ (hs : List Str) (m : Row) (i : Nat) (h : Str),
      rowLookup (mkRowAux vs m i hs) h =
        match lastPos h i hs with
        | some j => vs.getD j []
        | none => rowLookup m h := by
  intro hs
  induction hs with
  | nil => intro m i h; rfl
  | cons x xs ih =>
    intro m i h
    rw [mkRowAux, ih]
    show _ = (match lastPos h i (x :: xs) with
      | some j => vs.getD j []
      | none => rowLookup m h)
    rw [lastPos]
    cases hl : lastPos h (i + 1) xs with
    | some j => rfl
    | none =>
      by_cases hx : x = h
      · subst hx
        rw [if_pos rfl, rowLookup_objInsert_self]
      · rw [if_neg hx, rowLookup_objInsert_ne _ _ (fun hh => hx hh.symm)]

theorem lastPos_eq_none_iff (h : Str) : ∀ (l : List Str) (i : Nat),
    lastPos h i l = none ↔ h ∉ l := by
  intro l
  induction l with
  | nil => intro i; simp [lastPos]
  | cons x xs ih =>
    intro i
    rw [lastPos]
    constructor
    · intro he
      cases hl : lastPos h (i + 1) xs with
      | some j => rw [hl] at he; exact absurd he (by simp)
      | none =>
        rw [hl] at he
        simp only at he
        have hx : x ≠ h := by
          intro hh
          rw [if_pos hh] at he
          exact absurd he (by simp)
        intro hmem
        rcases List.mem_cons.mp hmem with h1 | h1
        · exact hx h1.symm
        · exact (ih (i + 1)).mp hl h1
    · intro hmem
      have hx : x ≠ h := fun hh => hmem (hh ▸ List.mem_cons_self _ _)
      have hxs : h ∉ xs := fun hh => hmem (List.mem_cons_of_mem _ hh)
      rw [(ih (i + 1)).mpr hxs]
      simp [hx]

/-! ### First-seen deduplication -/

theorem foldl_dedup_eq (l : List Str) : ∀ (acc : List Str),
    l.foldl (fun a h => if h ∈ a then a else a ++ [h]) acc
      = acc ++ (dedupSpecR l).filter (fun y => y ∉ acc) := by
  induction l with
  | nil => intro acc; simp [dedupSpecR]
  | cons x xs ih =>
    intro acc
    rw [List.foldl_cons]
    by_cases hx : x ∈ acc
    · rw [if_pos hx, ih acc]
      show _ = acc ++ (x :: (dedupSpecR xs).filter (fun y => y ≠ x)).filter (fun y => y ∉ acc)
      rw [List.filter_cons, if_neg (by simpa using hx), List.filter_filter]
      congr 1
      apply List.filter_congr
      intro a _
      by_cases h1 : a ∈ acc
      · simp [h1]
      · have h2 : a ≠ x := fun hh => h1 (hh ▸ hx)
        simp [h1, h2]
    · rw [if_neg hx, ih (acc ++ [x])]
      show _ = acc ++ (x :: (dedupSpecR xs).filter (fun y => y ≠ x)).filter (fun y => y ∉ acc)
      rw [List.filter_cons, if_pos (by simpa using hx), List.filter_filter,
        List.append_assoc, List.singleton_append]
      congr 2
      apply List.filter_congr
      intro a _
      by_cases h1 : a ∈ acc <;> by_cases h2 : a = x <;>
        simp [h1, h2, List.mem_append]

theorem dedupFirst_eq_spec (l : List Str) : dedupFirst l = dedupSpecR l := by
  rw [dedupFirst, foldl_dedup_eq, List.nil_append, List.filter_eq_self]
  intro a _
  simp

theorem mem_dedupSpecR {l : List Str} {y : Str} : y ∈ dedupSpecR l ↔ y ∈ l := by
  induction l with
  | nil => simp [dedupSpecR]
  | cons x xs ih =>
    rw [dedupSpecR]
    constructor
    · intro h
      rcases List.mem_cons.mp h with h | h
      · exact h ▸ List.mem_cons_self _ _
      · exact List.mem_cons_of_mem _ (ih.mp (List.mem_filter.mp h).1)
    · intro h
      rcases List.mem_cons.mp h with h | h
      · exact h ▸ List.mem_cons_self _ _
      · by_cases hyx : y = x
        · exact hyx ▸ List.mem_cons_self _ _
        · exact List.mem_cons_of_mem _
            (List.mem_filter.mpr ⟨ih.mpr h, by simpa using hyx⟩)

theorem nodup_dedupSpecR (l : List Str) : (dedupSpecR l).Nodup := by
  induction l with
  | nil => exact List.nodup_nil
  | cons x xs ih =>
    rw [dedupSpecR]
    refine List.nodup_cons.mpr ⟨?_, List.Nodup.filter _ ih⟩
    intro hx
    have h2 := (List.mem_filter.mp hx).2
    simp at h2

theorem dedupSpecR_of_nodup : ∀ {l : List Str}, l.Nodup → dedupSpecR l = l := by
  intro l
  induction l with
  | nil => intro _; rfl
  | cons x xs ih =>
    intro h
    rw [dedupSpecR, ih (List.nodup_cons.mp h).2]
    congr 1
    rw [List.filter_eq_self]
    intro a ha
    simp only [ne_eq, decide_not, Bool.not_eq_eq_eq_not, Bool.not_true, decide_eq_false_iff_not]
    exact fun hh => (List.nodup_cons.mp h).1 (hh ▸ ha)

theorem nodup_dedupFirst (l : List Str) : (dedupFirst l).Nodup :=
  dedupFirst_eq_spec l ▸ nodup_dedupSpecR l

theorem mem_dedupFirst {l : List Str} {y : Str} : y ∈ dedupFirst l ↔ y ∈ l := by
  rw [dedupFirst_eq_spec]
  exact mem_dedupSpecR

theorem dedupFirst_of_nodup {l : List Str} (h : l.Nodup) : dedupFirst l = l := by
  rw [dedupFirst_eq_spec]
  exact dedupSpecR_of_nodup h

theorem dedupFirst_ne_nil {l : List Str} (h : l ≠ []) : dedupFirst l ≠ [] := by
  obtain ⟨x, xs, rfl⟩ := List.exists_cons_of_ne_nil h
  rw [dedupFirst_eq_spec, dedupSpecR]
  simp

theorem unionColumns_eq_dedup (files : List UploadedFile) :
    unionColumns files = dedupFirst (files.flatMap (fun f => f.columns)) := by
  rw [unionColumns, dedupFirst]
  suffices h : ∀ (fs : List UploadedFile) (acc : List Str),
      fs.foldl (fun acc f =>
        f.columns.foldl (fun a c => if c ∈ a then a else a ++ [c]) acc) acc
        = (fs.flatMap (fun f => f.columns)).foldl
            (fun a c => if c ∈ a then a else a ++ [c]) acc from h files []
  intro fs
  induction fs with
  | nil => intro acc; simp
  | cons f fs ih =>
    intro acc
    rw [List.foldl_cons, ih, List.flatMap_cons, List.foldl_append]

/-! ### A row is determined by its keys and lookups -/

theorem row_eq_map_rkeys : ∀ (r : Row), (rkeys r).Nodup →
    r = (rkeys r).map (fun k => (k, rowLookup r k)) := by
  intro r
  induction r with
  | nil => intro _; rfl
  | cons hd tl ih =>
    intro hnd
    have hk : rkeys (hd :: tl) = hd.1 :: rkeys tl := rfl
    rw [hk, List.map_cons]
    have h1 : rowLookup (hd :: tl) hd.1 = hd.2 := by
      rw [rowLookup, List.find?_cons_of_pos _ (by simp)]
      rfl
    rw [h1]
    rw [hk] at hnd
    have hnd' := List.nodup_cons.mp hnd
    have h2 : tl = (rkeys tl).map (fun k => (k, rowLookup (hd :: tl) k)) := by
      conv_lhs => rw [ih hnd'.2]
      apply List.map_congr_left
      intro k hkmem
      have hne : hd.1 ≠ k := fun hh => hnd'.1 (hh ▸ hkmem)
      rw [rowLookup, rowLookup, List.find?_cons_of_neg _ (by simpa using hne)]
    rw [← h2]

theorem getD_map_lookup {ks : List Str} (f : Str → Str) {n : Nat} (hn : n < ks.length) :
    (ks.map f).getD n [] = f (ks.get ⟨n, hn⟩) := by
  rw [List.getD_eq_getElem?_getD, List.getElem?_map, List.getElem?_eq_getElem hn]
  rfl

theorem lastPos_nodup : ∀ (ks : List Str), ks.Nodup → ∀ (i n : Nat) (hn : n < ks.length),
    lastPos (ks.get ⟨n, hn⟩) i ks = some (i + n) := by
  intro ks
  induction ks with
  | nil => intro _ i n hn; simp at hn
  | cons x xs ih =>
    intro hnd i n hn
    match n with
    | 0 =>
      show lastPos x i (x :: xs) = some (i + 0)
      rw [lastPos, (lastPos_eq_none_iff x xs (i + 1)).mpr (List.nodup_cons.mp hnd).1]
      simp
    | Nat.succ m =>
      have hm : m < xs.length := by simpa using Nat.lt_of_succ_lt_succ hn
      show lastPos (xs.get ⟨m, hm⟩) i (x :: xs) = some (i + (m + 1))
      rw [lastPos, ih (List.nodup_cons.mp hnd).2 (i + 1) m hm]
      show some (i + 1 + m) = some (i + (m + 1))
      congr 1
      omega

theorem mkRow_self (r : Row) (hnd : (rkeys r).Nodup) :
    mkRow (rkeys r) ((rkeys r).map (fun k => rowLookup r k)) = r := by
  have hkeys : rkeys (mkRow (rkeys r) ((rkeys r).map (fun k => rowLookup r k))) = rkeys r := by
    rw [rkeys_mkRow, dedupFirst_of_nodup hnd]
  have hlook : ∀ (n : Nat) (hn : n < (rkeys r).length),
      rowLookup (mkRow (rkeys r) ((rkeys r).map (fun k => rowLookup r k)))
          ((rkeys r).get ⟨n, hn⟩)
        = rowLookup r ((rkeys r).get ⟨n, hn⟩) := by
    intro n hn
    rw [mkRow, rowLookup_mkRowAux, lastPos_nodup (rkeys r) hnd 0 n hn]
    show ((rkeys r).map (fun k => rowLookup r k)).getD (0 + n) [] = _
    rw [Nat.zero_add, getD_map_lookup _ hn]
  have h1 := row_eq_map_rkeys _ (hkeys ▸ hnd)
  rw [hkeys] at h1
  rw [h1]
  conv_rhs => rw [row_eq_map_rkeys r hnd]
  apply List.map_congr_left
  intro k hk
  obtain ⟨⟨n, hn⟩, rfl⟩ := List.mem_iff_get.mp hk
  rw [hlook n hn]

/-! ### Reshaping rows over fresh keys -/

theorem objInsert_foldl_fresh (g : Str → Str) :
    ∀ (ks : List Str) (m0 : Row), ks.Nodup → (∀ k ∈ ks, k ∉ rkeys m0) →
      ks.foldl (fun m c => objInsert m c (g c)) m0 = m0 ++ ks.map (fun c => (c, g c)) := by
  intro ks
  induction ks with
  | nil => intro m0 _ _; simp
  | cons c cs ih =>
    intro m0 hnd hfresh
    rw [List.foldl_cons]
    have hc : objInsert m0 c (g c) = m0 ++ [(c, g c)] := by
      rw [objInsert, if_neg]
      intro hany
      exact hfresh c (List.mem_cons_self _ _) ((any_key _ _).mp hany)
    have hfresh' : ∀ k ∈ cs, k ∉ rkeys (m0 ++ [(c, g c)]) := by
      intro k hk
      rw [rkeys, List.map_append]
      intro hmem
      rcases List.mem_append.mp hmem with h | h
      · exact hfresh k (List.mem_cons_of_mem _ hk) h
      · have h' : k = c := by simpa using h
        exact (List.nodup_cons.mp hnd).1 (h' ▸ hk)
    rw [hc, ih (m0 ++ [(c, g c)]) (List.nodup_cons.mp hnd).2 hfresh']
    simp

theorem reshapeRow_eq_map {ks : List Str} (hnd : ks.Nodup) (row : Row) :
    reshapeRow ks row = ks.map (fun c => (c, rowLookup row c)) := by
  rw [reshapeRow]
  simpa using objInsert_foldl_fresh (fun c => rowLookup row c) ks [] hnd
    (by intro k _; simp [rkeys])

/-! ### Parsing a whole document -/

theorem parseCSV_eq_cons {text hline : Str} {dlines : List Str}
    (h : (splitOnChar '\n' text).filter (fun l => trim l ≠ []) = hline :: dlines) :
    parseCSV text = dlines.map (fun line =>
      mkRow ((parseCSVLine hline).map stripQuotes)
        ((parseCSVLine line).map stripQuotes)) := by
  simp only [parseCSV]
  rw [h]

theorem mem_kept_line {D l : Str}
    (hl : l ∈ (splitOnChar '\n' D).filter (fun x => trim x ≠ [])) :
    ∀ c ∈ l, c ∈ D ∧ c ≠ '\n' :=
  fun c hc => mem_splitOnChar (List.mem_filter.mp hl).1 hc

theorem fields_no_quote {l : Str} (h : '"' ∉ l) :
    (parseCSVLine l).map stripQuotes = (splitOnChar ',' l).map trim := by
  rw [parseCSVLine_no_quote h, List.map_map]
  apply List.map_congr_left
  intro p hp
  show stripQuotes (trim p) = trim p
  apply stripQuotes_no_quote
  intro hq
  exact h (mem_splitOnChar hp (mem_trim hq)).1

theorem mem_fields_props {l f : Str} (hf : f ∈ (splitOnChar ',' l).map trim) :
    trim f = f ∧ ',' ∉ f ∧ ∀ c ∈ f, c ∈ l := by
  rcases List.mem_map.mp hf with ⟨p, hp, rfl⟩
  refine ⟨trim_idem p, ?_, ?_⟩
  · intro hc
    exact (mem_splitOnChar hp (mem_trim hc)).2 rfl
  · intro c hc
    exact (mem_splitOnChar hp (mem_trim hc)).1

theorem rowLookup_mkRow_mem (headers vals : List Str) (c : Str) :
    rowLookup (mkRow headers vals) c = [] ∨ rowLookup (mkRow headers vals) c ∈ vals := by
  rw [mkRow, rowLookup_mkRowAux]
  cases h : lastPos c 0 headers with
  | none => left; rfl
  | some j =>
    by_cases hj : j < vals.length
    · right
      show vals.getD j [] ∈ vals
      rw [List.getD_eq_getElem?_getD, List.getElem?_eq_getElem hj]
      exact List.getElem_mem hj
    · left
      show vals.getD j [] = []
      rw [List.getD_eq_getElem?_getD, List.getElem?_eq_none (by omega)]
      rfl

theorem escapeCell_id {v : Str} (h1 : ',' ∉ v) (h2 : '"' ∉ v) (h3 : '\n' ∉ v) :
    escapeCell v = v := by
  rw [escapeCell, if_neg]
  rintro (h | h | h)
  · exact h1 h
  · exact h2 h
  · exact h3 h

theorem not_mem_intercalate {sep c : Char} {L : List Str} (hcs : c ≠ sep)
    (h : ∀ p ∈ L, c ∉ p) : c ∉ List.intercalate [sep] L := by
  intro hc
  rcases mem_intercalate hc with h1 | ⟨p, hp, hcp⟩
  · exact hcs h1
  · exact h p hp hcp

/-- Re-parsing the serialized form of a well-formed table gives the table
back: the keys of every row form the same duplicate-free column list, all
column names and cell values are free of commas, quotes and line feeds and
are trim-stable, and no serialized line is blank. -/
theorem serialize_reparse (cols : List Str) (rows : List Row)
    (h0 : rows ≠ [])
    (hnd : cols.Nodup)
    (hcne : cols ≠ [])
    (hkeys : ∀ r ∈ rows, rkeys r = cols)
    (hcolprops : ∀ c ∈ cols, ',' ∉ c ∧ '"' ∉ c ∧ '\n' ∉ c ∧ trim c = c)
    (hcellprops : ∀ r ∈ rows, ∀ c ∈ cols,
      ',' ∉ rowLookup r c ∧ '"' ∉ rowLookup r c ∧ '\n' ∉ rowLookup r c ∧
        trim (rowLookup r c) = rowLookup r c)
    (hblank : ∀ l ∈ splitOnChar '\n' (downloadContent rows), trim l ≠ []) :
    parseCSV (downloadContent rows) = rows := by
  obtain ⟨r0, rs, rfl⟩ := List.exists_cons_of_ne_nil h0
  have hr0 : rkeys r0 = cols := hkeys r0 (List.mem_cons_self _ _)
  -- the serialized text written with plain (unescaped) cell values
  have hDC : downloadContent (r0 :: rs) =
      List.intercalate ['\n']
        (List.intercalate [','] cols ::
          (r0 :: rs).map (fun row =>
            List.intercalate [','] (cols.map (fun col => rowLookup row col)))) := by
    simp only [downloadContent]
    rw [hr0]
    congr 1
    congr 1
    apply List.map_congr_left
    intro r hr
    congr 1
    apply List.map_congr_left
    intro c hc
    rcases hcellprops r hr c hc with ⟨p1, p2, p3, _⟩
    exact escapeCell_id p1 p2 p3
  -- each produced line is free of line feeds
  have hnolf : ∀ p ∈ (List.intercalate [','] cols ::
      (r0 :: rs).map (fun row =>
        List.intercalate [','] (cols.map (fun col => rowLookup row col)))),
      '\n' ∉ p := by
    intro p hp
    rcases List.mem_cons.mp hp with h | h
    · subst h
      apply not_mem_intercalate (by decide)
      intro q hq hlf
      exact (hcolprops q hq).2.2.1 hlf
    · rcases List.mem_map.mp h with ⟨r, hr, rfl⟩
      apply not_mem_intercalate (by decide)
      intro q hq hlf
      rcases List.mem_map.mp hq with ⟨c, hc, rfl⟩
      exact (hcellprops r hr c hc).2.2.1 hlf
  have hsplit : splitOnChar '\n' (downloadContent (r0 :: rs)) =
      List.intercalate [','] cols ::
        (r0 :: rs).map (fun row =>
          List.intercalate [','] (cols.map (fun col => rowLookup row col))) := by
    rw [hDC]
    exact splitOnChar_intercalate '\n' (by simp) hnolf
  have hfilter : (splitOnChar '\n' (downloadContent (r0 :: rs))).filter
      (fun l => trim l ≠ []) =
      List.intercalate [','] cols ::
        (r0 :: rs).map (fun row =>
          List.intercalate [','] (cols.map (fun col => rowLookup row col))) := by
    rw [hsplit]
    rw [List.filter_eq_self]
    intro l hl
    have hbl := hblank l (by rw [hsplit]; exact hl)
    simpa using hbl
  rw [parseCSV_eq_cons hfilter]
  -- the reparsed header is the column list
  have hq_header : '"' ∉ List.intercalate [','] cols := by
    apply not_mem_intercalate (by decide)
    intro q hq hqq
    exact (hcolprops q hq).2.1 hqq
  have hheaders : (parseCSVLine (List.intercalate [','] cols)).map stripQuotes = cols := by
    rw [fields_no_quote hq_header,
      splitOnChar_intercalate ',' hcne (fun p hp => (hcolprops p hp).1)]
    conv_rhs => rw [← List.map_id cols]
    apply List.map_congr_left
    intro c hc
    exact (hcolprops c hc).2.2.2
  rw [hheaders, List.map_map]
  -- each reparsed data line rebuilds its row
  have hrow : ∀ r ∈ r0 :: rs,
      mkRow cols ((parseCSVLine
        (List.intercalate [','] (cols.map (fun col => rowLookup r col)))).map stripQuotes)
        = r := by
    intro r hr
    have hvne : cols.map (fun col => rowLookup r col) ≠ [] := by
      intro hmm
      exact hcne (List.map_eq_nil_iff.mp hmm)
    have hq_row : '"' ∉ List.intercalate [','] (cols.map (fun col => rowLookup r col)) := by
      apply not_mem_intercalate (by decide)
      intro q hq hqq
      rcases List.mem_map.mp hq with ⟨c, hc, rfl⟩
      exact (hcellprops r hr c hc).2.1 hqq
    rw [fields_no_quote hq_row,
      splitOnChar_intercalate ',' hvne (by
        intro q hq
        rcases List.mem_map.mp hq with ⟨c, hc, rfl⟩
        exact (hcellprops r hr c hc).1)]
    have hx : (cols.map (fun col => rowLookup r col)).map trim
        = cols.map (fun col => rowLookup r col) := by
      conv_rhs => rw [← List.map_id (cols.map (fun col => rowLookup r col))]
      apply List.map_congr_left
      intro v hv
      rcases List.mem_map.mp hv with ⟨c, hc, rfl⟩
      exact (hcellprops r hr c hc).2.2.2
    rw [hx]
    have hknd : (rkeys r).Nodup := by rw [hkeys r hr]; exact hnd
    calc mkRow cols (cols.map (fun c => rowLookup r c))
        = mkRow (rkeys r) ((rkeys r).map (fun c => rowLookup r c)) := by rw [hkeys r hr]
      _ = r := mkRow_self r hknd
  calc (r0 :: rs).map (fun row =>
        mkRow cols ((parseCSVLine
          (List.intercalate [','] (cols.map (fun col => rowLookup row col)))).map
            stripQuotes))
      = (r0 :: rs).map (fun row => row) := List.map_congr_left hrow
    _ = r0 :: rs := by simp

/-! ### Combining -/

theorem foldl_push_map (G : Row → Row) : ∀ (l : List Row) (acc : List Row),
    l.foldl (fun comb row => comb ++ [G row]) acc = acc ++ l.map G := by
  intro l
  induction l with
  | nil => intro acc; simp
  | cons r rs ih =>
    intro acc
    rw [List.foldl_cons, ih]
    simp

theorem combineCSVs_eq_flatMap (files : List UploadedFile) :
    combineCSVs files
      = files.flatMap (fun f => f.data.map (reshapeRow (unionColumns files))) := by
  rw [combineCSVs]
  suffices h : ∀ (fs : List UploadedFile) (acc : List Row),
      fs.foldl (fun combined f =>
        f.data.foldl (fun comb row => comb ++ [reshapeRow (unionColumns files) row])
          combined) acc
        = acc ++ fs.flatMap (fun f => f.data.map (reshapeRow (unionColumns files))) by
    simpa using h files []
  intro fs
  induction fs with
  | nil => intro acc; simp
  | cons f fs ih =>
    intro acc
    rw [List.foldl_cons, foldl_push_map, ih, List.flatMap_cons, List.append_assoc]

theorem length_flatMap_data (G : Row → Row) :
    ∀ (fs : List UploadedFile),
      (fs.flatMap (fun f => f.data.map G)).length
        = (fs.map (fun f => f.data.length)).sum := by
  intro fs
  induction fs with
  | nil => rfl
  | cons f fs ih => simp [List.flatMap_cons, ih]

/-! ### Uploading -/

theorem foldl_uploadStep (batch : List FileInput) :
    ∀ (acc : List UploadedFile × List Str),
      batch.foldl uploadStep acc =
        (acc.1 ++ (batch.filter (fun f => isCsvName f.name)).map
            (fun f => uploadEntry f.name f.text),
         acc.2 ++ (batch.filter (fun f => ¬ isCsvName f.name)).map
            (fun f => notCsvMsg f.name)) := by
  induction batch with
  | nil => intro acc; simp
  | cons f fs ih =>
    intro acc
    rw [List.foldl_cons]
    by_cases hf : isCsvName f.name
    · rw [show uploadStep acc f = (acc.1 ++ [uploadEntry f.name f.text], acc.2) by
        simp [uploadStep, hf]]
      rw [ih]
      simp [List.filter_cons, hf]
    · rw [show uploadStep acc f = (acc.1, acc.2 ++ [notCsvMsg f.name]) by
        simp [uploadStep, hf]]
      rw [ih]
      simp [List.filter_cons, hf]

/-! ### Spec-side join and escaping agree with the source forms -/

theorem joinBy_eq_intercalate (sep : Char) : ∀ (L : List Str),
    joinBy sep L = List.intercalate [sep] L := by
  intro L
  induction L with
  | nil => simp [joinBy, List.intercalate]
  | cons p L ih =>
    cases L with
    | nil => rw [joinBy, intercalate_one]
    | cons q M =>
      rw [joinBy, intercalate_two, ih]

theorem replaceQuotes_eq_spec : ∀ (v : Str), replaceQuotes v = doubleQuotesSpec v := by
  intro v
  induction v with
  | nil => rfl
  | cons c cs ih =>
    rw [replaceQuotes, List.flatMap_cons, doubleQuotesSpec]
    by_cases hc : c = '"'
    · rw [if_pos hc, if_pos hc, ← ih]
      rfl
    · rw [if_neg hc, if_neg hc, ← ih]
      rfl

/-! ### Claim C1 (round-trip) -/

/-- C1 counterexample: the document `a LF comma` contains no quote
character at all (so in particular no value embeds a quote), yet parsing,
serializing and re-parsing does not give the table back: the single row
`{a: empty}` serializes to a blank line, which the re-parse discards. -/
theorem roundtrip_counterexample :
    ('"' ∉ ("a\n,".data : Str)) ∧
      parseCSV ("a\n,".data) = [[("a".data, [])]] ∧
      parseCSV (downloadContent (parseCSV ("a\n,".data))) ≠ parseCSV ("a\n,".data) := by
  decide

/-- C1 (amended): for every CSV document with no quote characters whose
parse yields at least one row and whose serialized form has no blank
(whitespace-only) line, serializing the parsed table and parsing the result
yields an equal table. -/
theorem parse_serialize_roundtrip (D : Str)
    (hq : '"' ∉ D)
    (hne : parseCSV D ≠ [])
    (hblank : ∀ l ∈ splitOnChar '\n' (downloadContent (parseCSV D)), trim l ≠ []) :
    parseCSV (downloadContent (parseCSV D)) = parseCSV D := by
  obtain ⟨hline, dlines, hL⟩ : ∃ hline dlines,
      (splitOnChar '\n' D).filter (fun l => trim l ≠ []) = hline :: dlines := by
    cases hLL : (splitOnChar '\n' D).filter (fun l => trim l ≠ []) with
    | nil =>
      exfalso
      apply hne
      simp only [parseCSV]
      rw [hLL]
    | cons a b => exact ⟨a, b, rfl⟩
  have hparse := parseCSV_eq_cons hL
  have hlineprops : ∀ l ∈ (splitOnChar '\n' D).filter (fun x => trim x ≠ []),
      '"' ∉ l ∧ '\n' ∉ l := by
    intro l hl
    constructor
    · intro hcq
      exact hq (mem_kept_line hl '"' hcq).1
    · intro hcn
      exact (mem_kept_line hl '\n' hcn).2 rfl
  have hhl : hline ∈ (splitOnChar '\n' D).filter (fun x => trim x ≠ []) := by
    rw [hL]
    exact List.mem_cons_self _ _
  have hheq : (parseCSVLine hline).map stripQuotes = (splitOnChar ',' hline).map trim :=
    fields_no_quote (hlineprops hline hhl).1
  have hhne : (parseCSVLine hline).map stripQuotes ≠ [] := by
    rw [hheq]
    intro hmm
    exact splitOnChar_ne_nil ',' hline (List.map_eq_nil_iff.mp hmm)
  have hcne : dedupFirst ((parseCSVLine hline).map stripQuotes) ≠ [] :=
    dedupFirst_ne_nil hhne
  have hnd : (dedupFirst ((parseCSVLine hline).map stripQuotes)).Nodup :=
    nodup_dedupFirst _
  have hcolprops : ∀ c ∈ dedupFirst ((parseCSVLine hline).map stripQuotes),
      ',' ∉ c ∧ '"' ∉ c ∧ '\n' ∉ c ∧ trim c = c := by
    intro c hc
    have hch := mem_dedupFirst.mp hc
    rw [hheq] at hch
    rcases mem_fields_props hch with ⟨ht, hcm, hsub⟩
    refine ⟨hcm, ?_, ?_, ht⟩
    · intro hqq
      exact (hlineprops hline hhl).1 (hsub _ hqq)
    · intro hnn
      exact (hlineprops hline hhl).2 (hsub _ hnn)
  have hkeys : ∀ r ∈ parseCSV D,
      rkeys r = dedupFirst ((parseCSVLine hline).map stripQuotes) := by
    intro r hr
    rw [hparse] at hr
    rcases List.mem_map.mp hr with ⟨line, _, rfl⟩
    exact rkeys_mkRow _ _
  have hcellprops : ∀ r ∈ parseCSV D,
      ∀ c ∈ dedupFirst ((parseCSVLine hline).map stripQuotes),
      ',' ∉ rowLookup r c ∧ '"' ∉ rowLookup r c ∧ '\n' ∉ rowLookup r c ∧
        trim (rowLookup r c) = rowLookup r c := by
    intro r hr c _
    rw [hparse] at hr
    rcases List.mem_map.mp hr with ⟨line, hlm, rfl⟩
    have hlin : line ∈ (splitOnChar '\n' D).filter (fun x => trim x ≠ []) := by
      rw [hL]
      exact List.mem_cons_of_mem _ hlm
    have hvals : (parseCSVLine line).map stripQuotes = (splitOnChar ',' line).map trim :=
      fields_no_quote (hlineprops line hlin).1
    rcases rowLookup_mkRow_mem ((parseCSVLine hline).map stripQuotes)
        ((parseCSVLine line).map stripQuotes) c with hv | hv
    · rw [hv]
      exact ⟨by simp, by simp, by simp, rfl⟩
    · have hv3 : rowLookup (mkRow ((parseCSVLine hline).map stripQuotes)
          ((parseCSVLine line).map stripQuotes)) c ∈ (splitOnChar ',' line).map trim := by
        rw [← hvals]
        exact hv
      rcases mem_fields_props hv3 with ⟨ht, hcm, hsub⟩
      refine ⟨hcm, ?_, ?_, ht⟩
      · intro hqq
        exact (hlineprops line hlin).1 (hsub _ hqq)
      · intro hnn
        exact (hlineprops line hlin).2 (hsub _ hnn)
  exact serialize_reparse _ (parseCSV D) hne hnd hcne hkeys hcolprops hcellprops hblank

/-- The amended C1 at a concrete document: the hypotheses hold for
`a,b LF 1,2` and the round trip reproduces its table. -/
theorem parse_serialize_roundtrip_witness :
    ('"' ∉ ("a,b\n1,2".data : Str)) ∧ parseCSV ("a,b\n1,2".data) ≠ [] ∧
      parseCSV (downloadContent (parseCSV ("a,b\n1,2".data)))
        = parseCSV ("a,b\n1,2".data) :=
  ⟨by decide, by decide,
    parse_serialize_roundtrip ("a,b\n1,2".data) (by decide) (by decide) (by decide)⟩

/-! ### Claim C2 (combine keeps all rows in order) -/

/-- C2: `combineCSVs` neither drops nor reorders rows: the combined list is
exactly the concatenation, in file order, of each file's rows in their own
order (each reshaped to the union columns), and its length is the sum of
the input row counts. -/
theorem combine_rows_complete (files : List UploadedFile) :
    combineCSVs files
        = files.flatMap (fun f => f.data.map (reshapeRow (unionColumns files))) ∧
      (combineCSVs files).length = (files.map (fun f => f.data.length)).sum := by
  refine ⟨combineCSVs_eq_flatMap files, ?_⟩
  rw [combineCSVs_eq_flatMap files, length_flatMap_data]

/-! ### Claim C3 (column union) -/

/-- C3: the column list of the combined result is the first-appearance
deduplication of the concatenated column lists (files in input order, each
file columns in its own order), has no duplicates, and a column is in it
exactly when some input file declares it. -/
theorem combine_columns_union (files : List UploadedFile) :
    unionColumns files = dedupSpecR (files.flatMap (fun f => f.columns)) ∧
      (unionColumns files).Nodup ∧
      ∀ c, (c ∈ unionColumns files ↔ ∃ f ∈ files, c ∈ f.columns) := by
  refine ⟨?_, ?_, ?_⟩
  · rw [unionColumns_eq_dedup, dedupFirst_eq_spec]
  · rw [unionColumns_eq_dedup]
    exact nodup_dedupFirst _
  · intro c
    rw [unionColumns_eq_dedup, mem_dedupFirst, List.mem_flatMap]

/-! ### Claim C4 (zero-row tables) -/

/-- C4 counterexample: the header-only document `a,b LF` declares columns
`a` and `b` (its header parses to them), but the uploaded entry built from
it has an empty column list, so combining it with a `c`-file yields the
union `[c]`: the declared columns do not participate. -/
theorem zero_row_columns_counterexample :
    (parseCSVLine ("a,b".data)).map stripQuotes = ["a".data, "b".data] ∧
      (uploadEntry ("x.csv".data) ("a,b\n".data)).data = [] ∧
      unionColumns [uploadEntry ("x.csv".data) ("a,b\n".data),
        uploadEntry ("y.csv".data) ("c\n1".data)] = ["c".data] ∧
      "a".data ∉ unionColumns [uploadEntry ("x.csv".data) ("a,b\n".data),
        uploadEntry ("y.csv".data) ("c\n1".data)] := by
  decide

/-- C4 (amended): a file whose document parses to zero data rows
contributes zero rows to the combined result, but also zero columns: its
stored column list is empty (columns are taken from the first data row),
so both the column union and the combined rows are as if the file were
absent. -/
theorem zero_row_table_contributes_nothing (name text : Str)
    (files1 files2 : List UploadedFile) (h : parseCSV text = []) :
    (uploadEntry name text).data = [] ∧
      (uploadEntry name text).columns = [] ∧
      unionColumns (files1 ++ uploadEntry name text :: files2)
        = unionColumns (files1 ++ files2) ∧
      combineCSVs (files1 ++ uploadEntry name text :: files2)
        = combineCSVs (files1 ++ files2) := by
  have hdata : (uploadEntry name text).data = [] := by
    simp [uploadEntry, h]
  have hcols : (uploadEntry name text).columns = [] := by
    simp [uploadEntry, h]
  have hunion : unionColumns (files1 ++ uploadEntry name text :: files2)
      = unionColumns (files1 ++ files2) := by
    rw [unionColumns_eq_dedup, unionColumns_eq_dedup]
    congr 1
    simp [hcols]
  refine ⟨hdata, hcols, hunion, ?_⟩
  rw [combineCSVs_eq_flatMap, combineCSVs_eq_flatMap, hunion]
  simp [hdata]

/-- The amended C4 at a concrete input: a header-only `a,b` file combined
with a one-row `c` file leaves union and rows as if absent. -/
theorem zero_row_table_contributes_nothing_witness :
    parseCSV ("a,b\n".data) = [] ∧
      unionColumns [uploadEntry ("x.csv".data) ("a,b\n".data),
          uploadEntry ("y.csv".data) ("c\n1".data)]
        = unionColumns [uploadEntry ("y.csv".data) ("c\n1".data)] :=
  ⟨by decide,
    (zero_row_table_contributes_nothing ("x.csv".data) ("a,b\n".data) []
      [uploadEntry ("y.csv".data) ("c\n1".data)] (by decide)).2.2.1⟩

/-! ### Claim C6 (short and long data rows) -/

/-- C6: a data row binds exactly the header keys (fields beyond the header
are dropped), a header name whose value index is past the end of the data
fields gets the empty string, and the concrete document
`a,b LF 1,2 LF 3 LF` parses to the two rows `{a:1, b:2}` and `{a:3, b:}`. -/
theorem short_row_fills_empty (headers vals : List Str) (h : Str) (j : Nat)
    (hj : lastPos h 0 headers = some j) (hlen : vals.length ≤ j) :
    rkeys (mkRow headers vals) = dedupFirst headers ∧
      rowLookup (mkRow headers vals) h = [] ∧
      parseCSV ("a,b\n1,2\n3\n".data)
        = [[("a".data, "1".data), ("b".data, "2".data)],
           [("a".data, "3".data), ("b".data, [])]] := by
  refine ⟨rkeys_mkRow _ _, ?_, by decide⟩
  rw [mkRow, rowLookup_mkRowAux, hj]
  show vals.getD j [] = []
  rw [List.getD_eq_getElem?_getD, List.getElem?_eq_none hlen]
  rfl

/-- C6 at a concrete input: in header `a,b` with the short data row `3`,
the column `b` (last position 1, past the single field) gets the empty
string. -/
theorem short_row_fills_empty_witness :
    lastPos ("b".data) 0 ["a".data, "b".data] = some 1 ∧
      rowLookup (mkRow ["a".data, "b".data] ["3".data]) ("b".data) = [] :=
  ⟨by decide,
    (short_row_fills_empty ["a".data, "b".data] ["3".data] ("b".data) 1
      (by decide) (by decide)).2.1⟩

/-! ### Claim C7 (serializer shape) -/

/-- C7: the serialized content is exactly what the spec describes: the
header line is the column names joined by commas and never quoted; each
cell is wrapped in double quotes if and only if it contains a comma, a
double quote or a line feed, with every inner quote doubled; lines are
joined by a single line feed with no trailing newline (`serializeSpec` is
that description verbatim). -/
theorem downloadContent_eq_spec (rows : List Row) :
    downloadContent rows = serializeSpec rows := by
  cases rows with
  | nil => rfl
  | cons r0 rs =>
    simp only [downloadContent, serializeSpec]
    rw [joinBy_eq_intercalate]
    congr 1
    congr 1
    · rw [joinBy_eq_intercalate]
    · apply List.map_congr_left
      intro r _
      rw [joinBy_eq_intercalate]
      congr 1
      apply List.map_congr_left
      intro c _
      rw [escapeCell, replaceQuotes_eq_spec]

/-! ### Claim C8 (file count cap) -/

/-- C8: when the batch size plus the already-registered count exceeds 100,
the upload is rejected with the count-exceeded message and the registered
list is unchanged: no file of the batch is added. -/
theorem file_count_exceeded (registered : List UploadedFile) (batch : List FileInput)
    (h : batch.length + registered.length > 100) :
    (handleFileUpload registered batch).1 = registered ∧
      (handleFileUpload registered batch).2 = [maxFilesMsg] := by
  rw [handleFileUpload, if_pos h]
  exact ⟨rfl, rfl⟩

/-- C8 at a concrete input: registering 101 files when none are registered
leaves the registered set unchanged. -/
theorem file_count_exceeded_witness :
    (List.replicate 101 (⟨"f.csv".data, "a\n1".data⟩ : FileInput)).length
        + ([] : List UploadedFile).length > 100 ∧
      (handleFileUpload [] (List.replicate 101 ⟨"f.csv".data, "a\n1".data⟩)).1 = [] :=
  ⟨by decide, (file_count_exceeded [] _ (by decide)).1⟩

/-! ### Claim C9 (invalid extension is non-fatal) -/

/-- C9: under the file-count cap, a file whose name does not end in `.csv`
is rejected with its per-file message, which is among the emitted
messages, while every sibling whose name does end in `.csv` is still
processed and registered in order. -/
theorem invalid_extension_nonfatal (registered : List UploadedFile)
    (batch : List FileInput) (f : FileInput)
    (hcount : ¬ batch.length + registered.length > 100)
    (hf : f ∈ batch) (hbad : isCsvName f.name = false) :
    (handleFileUpload registered batch).1
        = registered ++ (batch.filter (fun g => isCsvName g.name)).map
            (fun g => uploadEntry g.name g.text) ∧
      notCsvMsg f.name ∈ (handleFileUpload registered batch).2 := by
  rw [handleFileUpload, if_neg hcount]
  rw [foldl_uploadStep batch ([], [])]
  refine ⟨rfl, ?_⟩
  show notCsvMsg f.name ∈ [] ++ (batch.filter (fun g => ¬ isCsvName g.name)).map
    (fun g => notCsvMsg g.name)
  rw [List.nil_append]
  exact List.mem_map.mpr ⟨f, List.mem_filter.mpr ⟨hf, by simp [hbad]⟩, rfl⟩

/-- C9 at a concrete input: in a batch of `bad.txt` and `good.csv`, the
`.txt` file is rejected with its message and `good.csv` is still
registered. -/
theorem invalid_extension_nonfatal_witness :
    (¬ ([⟨"bad.txt".data, "a\n1".data⟩,
          ⟨"good.csv".data, "a\n1".data⟩] : List FileInput).length
        + ([] : List UploadedFile).length > 100) ∧
      isCsvName ("bad.txt".data) = false ∧
      (handleFileUpload []
          [⟨"bad.txt".data, "a\n1".data⟩, ⟨"good.csv".data, "a\n1".data⟩]).1
        = [] ++ ([(⟨"good.csv".data, "a\n1".data⟩ : FileInput)].map
            (fun g => uploadEntry g.name g.text)) ∧
      notCsvMsg ("bad.txt".data) ∈ (handleFileUpload []
          [⟨"bad.txt".data, "a\n1".data⟩, ⟨"good.csv".data, "a\n1".data⟩]).2 := by
  have h := invalid_extension_nonfatal []
    [⟨"bad.txt".data, "a\n1".data⟩, ⟨"good.csv".data, "a\n1".data⟩]
    ⟨"bad.txt".data, "a\n1".data⟩ (by decide) (by decide) (by decide)
  exact ⟨by decide, by decide, by rw [h.1]; decide, h.2⟩

/-! ### Claim C10 (duplicate header names) -/

/-- C10: a row built from a header with duplicated names is keyed by the
distinct names only (the key list is duplicate-free and lists each name
once), each name is bound to the data field at the last position where it
occurs in the header, and parsing `a,a LF 1,2` yields the single row
`{a:2}` with column list `[a]`. -/
theorem duplicate_header_last_wins (headers vals : List Str) (h : Str) (j : Nat)
    (hj : lastPos h 0 headers = some j) :
    rkeys (mkRow headers vals) = dedupFirst headers ∧
      (dedupFirst headers).Nodup ∧
      h ∈ dedupFirst headers ∧
      rowLookup (mkRow headers vals) h = vals.getD j [] ∧
      parseCSV ("a,a\n1,2".data) = [[("a".data, "2".data)]] := by
  refine ⟨rkeys_mkRow _ _, nodup_dedupFirst _, ?_, ?_, by decide⟩
  · apply mem_dedupFirst.mpr
    by_contra hmem
    rw [(lastPos_eq_none_iff h headers 0).mpr hmem] at hj
    exact absurd hj (by simp)
  · rw [mkRow, rowLookup_mkRowAux, hj]

/-- C10 at a concrete input: with header `a,a` and fields `1,2`, the single
key `a` is bound to the field at the last duplicate position, `2`. -/
theorem duplicate_header_last_wins_witness :
    lastPos ("a".data) 0 ["a".data, "a".data] = some 1 ∧
      rowLookup (mkRow ["a".data, "a".data] ["1".data, "2".data]) ("a".data)
        = "2".data :=
  ⟨by decide,
    (duplicate_header_last_wins ["a".data, "a".data] ["1".data, "2".data]
      ("a".data) 1 (by decide)).2.2.2.1⟩

end CSVC
